import Mathlib

/-!
# Verification of `seed_url.py`

A shallow embedding of the single-domain parallel crawler in `src/seed_url.py`.

* URLs are Lean `String`s; Python `set`s of URLs become `Finset String`.
* The Python string operations used by the crawler (`strip`, `lower`,
  `startswith`, `endswith`, the `in` substring test, `split`) and the parts of
  `urllib.parse.urlparse` that `is_valid_link` consumes are modelled over
  `List Char`.  The `ValueError` paths of `urlsplit` (mismatched IPv6
  brackets) are not modelled; the parse here is total.
* The headless-browser render step inside `process_page` is an external
  collaborator; it is modelled as an oracle `Render` returning either the list
  of anchor hrefs of the loaded page or the message of the exception raised.
  The `try`/`except` of `process_page` becomes a `match` on that result.
* The loop of `crawl_all_parallel` is nondeterministic in two ways: the batch
  is `list(to_visit)[:CONCURRENT_WORKERS]` for an arbitrary enumeration of the
  set, and results arrive in an arbitrary completion order.  Both choices are
  captured by a single duplicate-free list `urls` (the batch, in completion
  order); a round is the relation `StepOn`, a whole crawl a reflexive
  transitive closure of rounds ending in a `Terminal` state.
* The progress bar and the final JSON dump do not touch the four sets and are
  not modelled.
-/

namespace SeedUrl

/-! ### Python string primitives -/

/-- ASCII whitespace as recognised by Python `str.strip()`. -/
def pyIsSpace (c : Char) : Bool :=
  c == ' ' || c == '\t' || c == '\n' || c == '\r' || c == '\x0b' || c == '\x0c'

/-- Python `s.strip()`. -/
def pyStrip (s : String) : String :=
  (((s.toList.dropWhile pyIsSpace).reverse.dropWhile pyIsSpace).reverse).asString

/-- Python `s.lower()` (ASCII range). -/
def pyLower (s : String) : String :=
  (s.toList.map Char.toLower).asString

/-- Python `s.startswith(p)`. -/
def pyStartsWith (s p : String) : Bool :=
  p.toList.isPrefixOf s.toList

/-- Python `s.endswith(p)`. -/
def pyEndsWith (s p : String) : Bool :=
  p.toList.isSuffixOf s.toList

/-- Python `p in s`, the contiguous-substring test, at the character level. -/
def infixAnywhere (p : List Char) : List Char → Bool
  | [] => p.isEmpty
  | c :: cs => p.isPrefixOf (c :: cs) || infixAnywhere p cs

/-- Python `p in s` on strings. -/
def pyContains (s p : String) : Bool :=
  infixAnywhere p.toList s.toList

/-- Split a character list at the first occurrence of `sep`: the part before
it, and `some` part after it (`none` when `sep` does not occur). -/
def splitOnFirst (sep : Char) : List Char → List Char × Option (List Char)
  | [] => ([], none)
  | c :: cs =>
    if c == sep then ([], some cs)
    else
      let r := splitOnFirst sep cs
      (c :: r.1, r.2)

/-- Python `s.split(sep, 1)` collapsed to a pair, second component empty when
`sep` does not occur (matches how `urlparse` uses it). -/
def splitOnFirstD (sep : Char) (l : List Char) : List Char × List Char :=
  match splitOnFirst sep l with
  | (a, some b) => (a, b)
  | (a, none) => (a, [])

/-! ### The parts of `urllib.parse.urlparse` used by `is_valid_link` -/

structure UrlParts where
  scheme : String
  netloc : String
  path : String
  params : String
  query : String
  fragment : String
deriving DecidableEq

/-- The characters allowed in a URI scheme by `urllib.parse`. -/
def schemeChar (c : Char) : Bool :=
  c.isAlpha || c.isDigit || c == '+' || c == '-' || c == '.'

/-- A character ending the netloc portion. -/
def netlocEnd (c : Char) : Bool :=
  c == '/' || c == '?' || c == '#'

/-- Scheme extraction of `urlsplit`: chars before the first `':'` form the
scheme when the first is a letter and all are scheme characters; otherwise the
url is left whole. -/
def extractScheme (l : List Char) : List Char × List Char :=
  match splitOnFirst ':' l with
  | (pre, some rest) =>
    match pre with
    | [] => ([], l)
    | c :: cs =>
      if c.isAlpha && (c :: cs).all schemeChar then ((c :: cs).map Char.toLower, rest)
      else ([], l)
  | (_, none) => ([], l)

/-- Netloc extraction of `urlsplit`: after a leading `"//"`, up to the first
`'/'`, `'?'` or `'#'`. -/
def extractNetloc : List Char → List Char × List Char
  | '/' :: '/' :: rest =>
    (rest.takeWhile (fun c => !netlocEnd c), rest.dropWhile (fun c => !netlocEnd c))
  | l => ([], l)

/-- `_splitparams` of `urllib.parse`: split the path at the first `';'` of its
last segment. -/
def splitParams (l : List Char) : List Char × List Char :=
  if l.contains '/' then
    let revl := l.reverse
    let segRev := revl.takeWhile (fun c => !(c == '/'))
    let preRev := revl.dropWhile (fun c => !(c == '/'))
    let sp := splitOnFirstD ';' segRev.reverse
    (preRev.reverse ++ sp.1, sp.2)
  else
    splitOnFirstD ';' l

/-- `urllib.parse.urlparse`: WHATWG lstrip, removal of tab/CR/LF, then scheme,
netloc, fragment, query and params splits. -/
def urlparse (s : String) : UrlParts :=
  let l0 := s.toList.dropWhile (fun c => c ≤ ' ')
  let l := l0.filter (fun c => !(c == '\t' || c == '\r' || c == '\n'))
  let sr := extractScheme l
  let nr := extractNetloc sr.2
  let hf := splitOnFirstD '#' nr.2
  let qr := splitOnFirstD '?' hf.1
  let pp := splitParams qr.1
  { scheme := sr.1.asString, netloc := nr.1.asString, path := pp.1.asString,
    params := pp.2.asString, query := qr.2.asString, fragment := hf.2.asString }

/-! ### Configuration constants (lines 8–25 of `seed_url.py`) -/

def CONCURRENT_WORKERS : Nat := 16
def BASE_DOMAIN : String := "yc.go.kr"
def START_URL : String := "https://yc.go.kr/main.do"
def MAX_PAGES : Nat := 80000
def CHECK_INTERVAL : Nat := 500

def IGNORED_DOMAINS : List String :=
  ["facebook.com", "instagram.com", "youtube.com", "twitter.com",
   "naver.com", "daum.net", "kakao.com", "google.com", "gov.kr", "mail."]

def EXCLUDED_EXTENSIONS : List String :=
  [".jpg", ".jpeg", ".png", ".gif", ".bmp", ".svg",
   ".zip", ".rar", ".tar", ".gz", ".7z",
   ".pdf", ".hwp", ".doc", ".docx", ".xls", ".xlsx",
   ".ppt", ".pptx", ".mp4", ".avi", ".mp3", ".wav",
   ".exe", ".apk", ".dll", ".git", ".download"]

/-! ### `is_valid_link` (lines 28–42) -/

def is_valid_link (href : String) : Bool :=
  if href == "" then false
  else
    let h := pyLower (pyStrip href)
    if pyStartsWith h "mailto:" || pyStartsWith h "javascript:" || pyStartsWith h "tel:" then
      false
    else
      let parsed := urlparse h
      let full_check_target := parsed.path ++ parsed.query
      if EXCLUDED_EXTENSIONS.any (fun ext => pyEndsWith full_check_target ext) then false
      else if parsed.scheme != "" && !(parsed.scheme == "http" || parsed.scheme == "https") then
        false
      else if IGNORED_DOMAINS.any (fun d => pyContains h d) then false
      else pyContains parsed.netloc BASE_DOMAIN

/-! ### `process_page` (lines 45–62) -/

/-- Python `href.split("#")[0]`. -/
def stripFragment (href : String) : String :=
  (splitOnFirst '#' href.toList).1.asString

/-- The external render capability: the anchor hrefs of the fully loaded page,
or the stringified exception of any failure inside the `try` block. -/
def Render : Type := String → Except String (List String)

/-- `process_page`: on success the set of fragment-stripped filter-accepted
hrefs with no error, on any exception the empty set and the message. -/
def process_page (render : Render) (url : String) : String × Finset String × Option String :=
  match render url with
  | Except.ok hrefs => (url, ((hrefs.filter is_valid_link).map stripFragment).toFinset, none)
  | Except.error e => (url, ∅, some e)

/-! ### `crawl_all_parallel` (lines 65–113) -/

structure CrawlState where
  toVisit : Finset String
  visited : Finset String
  allLinks : Finset String
  failedUrls : Finset String
deriving DecidableEq

/-- Python truthiness of the `error` component (`if error:`): an empty message
counts as no error. -/
def errorTruthy : Option String → Bool
  | none => false
  | some e => !(e == "")

/-- Lines 86–95: merging one completed result into the shared sets. -/
def mergeResult (st : CrawlState) (r : String × Finset String × Option String) : CrawlState :=
  let visited' := insert r.1 st.visited
  if errorTruthy r.2.2 then
    { st with visited := visited', failedUrls := insert r.1 st.failedUrls }
  else
    let filtered := (r.2.1 \ visited') \ st.toVisit
    { toVisit := st.toVisit ∪ filtered, visited := visited',
      allLinks := st.allLinks ∪ filtered, failedUrls := st.failedUrls }

/-- Lines 77–95: one round with batch `urls` (in completion order): the batch
is removed from the frontier, then every result is merged. -/
def runRound (render : Render) (st : CrawlState) (urls : List String) : CrawlState :=
  let st1 : CrawlState := { st with toVisit := st.toVisit \ urls.toFinset }
  (urls.map (process_page render)).foldl mergeResult st1

/-- One iteration of the `while` loop: the guard holds, and `urls` is a valid
batch (duplicate-free members of the frontier, `min` of the worker count and
the frontier size many of them), processed in some completion order. -/
structure StepOn (render : Render) (W maxP : Nat) (urls : List String)
    (st st' : CrawlState) : Prop where
  frontier_ne : st.toVisit ≠ ∅
  under_cap : st.visited.card < maxP
  nodup : urls.Nodup
  subset : urls.toFinset ⊆ st.toVisit
  length_eq : urls.length = min W st.toVisit.card
  result : st' = runRound render st urls

/-- One round, for some batch and completion order. -/
def StepRel (render : Render) (W maxP : Nat) (st st' : CrawlState) : Prop :=
  ∃ urls, StepOn render W maxP urls st st'

/-- Zero or more rounds. -/
def Reaches (render : Render) (W maxP : Nat) : CrawlState → CrawlState → Prop :=
  Relation.ReflTransGen (StepRel render W maxP)

/-- The `while` guard fails: the frontier drained or the page cap is reached. -/
def Terminal (maxP : Nat) (st : CrawlState) : Prop :=
  st.toVisit = ∅ ∨ maxP ≤ st.visited.card

/-- Lines 66–69: the initial state, frontier seeded with one URL. -/
def initState (seed : String) : CrawlState :=
  { toVisit := {seed}, visited := ∅, allLinks := ∅, failedUrls := ∅ }

/-! ### Scenario environments and states used to instantiate the claims -/

/-- A render oracle on which every fetch fails: the resulting one-round crawl
visits only the seed. -/
def renderFail : Render := fun _ => Except.error "net::ERR_CONNECTION_REFUSED"

def smallFinal : CrawlState := runRound renderFail (initState START_URL) [START_URL]

/-- Three filter-accepted in-domain URLs used by the concrete scenarios. -/
def urlA : String := "https://yc.go.kr/a"
def urlB : String := "https://yc.go.kr/b"
def urlC : String := "https://yc.go.kr/c"

/-- The seed links to `a` and `b`; `a` links to `b` and `c`; `b` errors; `c`
is a leaf. -/
def renderC1 : Render := fun u =>
  if u = START_URL then Except.ok [urlA, urlB]
  else if u = urlA then Except.ok [urlB, urlC]
  else if u = urlB then Except.error "net::ERR_CONNECTION_REFUSED"
  else if u = urlC then Except.ok []
  else Except.error "unreachable"

def c1Mid : CrawlState := runRound renderC1 (initState START_URL) [START_URL]
def c1Bad : CrawlState := runRound renderC1 c1Mid [urlA, urlB]
def c1Next : CrawlState := runRound renderC1 c1Bad [urlB, urlC]

/-- The seed links to `b`, whose fetch errors with the message `msg`. -/
def render3 (msg : String) : Render := fun u =>
  if u = START_URL then Except.ok [urlB]
  else if u = urlB then Except.error msg
  else Except.error "unreachable"

def c3Mid (msg : String) : CrawlState := runRound (render3 msg) (initState START_URL) [START_URL]

def c3Final (msg : String) : CrawlState := runRound (render3 msg) (c3Mid msg) [urlB]

/-- Every URL the crawl knows of — frontier or visited — is the seed or is in
`all_links`. -/
def Known (seed : String) (s : CrawlState) : Prop :=
  s.toVisit ∪ s.visited ⊆ insert seed s.allLinks

/-- The inductive invariant behind "the seed never enters `all_links`": either
the frontier is still exactly the seed, or the seed has been visited. -/
def SeedSafe (seed : String) (s : CrawlState) : Prop :=
  seed ∉ s.allLinks ∧ (s.toVisit = {seed} ∨ seed ∈ s.visited)

/-- The counterexample graph of claim C4: the seed links to `a`, and `a`
links back to the seed; the link back to the seed is filter-accepted yet
never reaches `all_links`. -/
def render4 : Render := fun u =>
  if u = START_URL then Except.ok [urlA]
  else if u = urlA then Except.ok [START_URL]
  else Except.error "unreachable"

def c4Mid : CrawlState := runRound render4 (initState START_URL) [START_URL]
def c4Final : CrawlState := runRound render4 c4Mid [urlA]

/-- The seed of the spec's scenario (claim C5). -/
def sUrl : String := "https://yc.go.kr/s"

/-- The scenario graph: `S` yields `{A, B}`, `A` yields `{B, C}`, `B` errors,
`C` yields nothing. -/
def render5 : Render := fun u =>
  if u = sUrl then Except.ok [urlA, urlB]
  else if u = urlA then Except.ok [urlB, urlC]
  else if u = urlB then Except.error "net::ERR_CONNECTION_REFUSED"
  else if u = urlC then Except.ok []
  else Except.error "unreachable"

def s5_0 : CrawlState := initState sUrl
def s5_1 : CrawlState := ⟨{urlA, urlB}, {sUrl}, {urlA, urlB}, ∅⟩
def s5_2a : CrawlState := ⟨{urlB, urlC}, {sUrl, urlA, urlB}, {urlA, urlB, urlC}, {urlB}⟩
def s5_2b : CrawlState := ⟨{urlC}, {sUrl, urlA, urlB}, {urlA, urlB, urlC}, {urlB}⟩
def s5_3 : CrawlState := ⟨∅, {sUrl, urlA, urlB, urlC}, {urlA, urlB, urlC}, {urlB}⟩

/-- The five states a run of the scenario can be in after any number of
rounds. -/
def Good5 (st : CrawlState) : Prop :=
  st = s5_0 ∨ st = s5_1 ∨ st = s5_2a ∨ st = s5_2b ∨ st = s5_3

/-- `n` repetitions of `'a'`, the tail of the `n`-th tree URL (claim C2). -/
def aRep (n : Nat) : String := (List.replicate n 'a').asString

/-- The URL family of the infinite 16-ary tree graph: page `0` is the seed,
page `n ≥ 1` is `"https://yc.go.kr/" ++ n` repetitions of `'a'`. -/
def urlOf (n : Nat) : String :=
  if n = 0 then START_URL else "https://yc.go.kr/" ++ aRep n

/-- The index of a tree URL, recovered from its length. -/
def idxOf (s : String) : Nat :=
  if s = START_URL then 0 else s.length - 17

/-- Page `j` links to pages `16 j + 1 … 16 j + 16`. -/
def childIdx (j : Nat) : List Nat := List.range' (16 * j + 1) 16

def renderTree : Render := fun s => Except.ok ((childIdx (idxOf s)).map urlOf)

/-- The crawl state after the rounds that visit pages `0 … v - 1` in index
order: the frontier holds the already discovered, unvisited pages
`v … 16 (v - 1) + 16 = 16 v`, and `all_links` every non-seed page discovered
so far. -/
def treeState (v : Nat) : CrawlState :=
  { toVisit := (Finset.Ico v (16 * v + 1)).image urlOf,
    visited := (Finset.range v).image urlOf,
    allLinks := (Finset.Ico 1 (16 * v + 1)).image urlOf,
    failedUrls := ∅ }

/-- The state in the middle of a tree round that started at `treeState v`,
after the results of pages `v … j - 1` have been merged. -/
def treeMid (v j : Nat) : CrawlState :=
  { toVisit := (Finset.Ico (v + 16) (16 * j + 1)).image urlOf,
    visited := (Finset.range j).image urlOf,
    allLinks := (Finset.Ico 1 (16 * j + 1)).image urlOf,
    failedUrls := ∅ }

/-! Sanity checks of the URL-filter model on the spec's own examples. -/

example : is_valid_link "https://yc.go.kr/main.do" = true := by decide
example : is_valid_link "mailto:a@yc.go.kr" = false := by decide
example : is_valid_link "https://yc.go.kr/doc.pdf" = false := by decide
example : is_valid_link "https://facebook.com/redirect?to=yc.go.kr" = false := by decide
example : is_valid_link "" = false := by decide
example : is_valid_link "ftp://yc.go.kr/x" = false := by decide
example : stripFragment "https://yc.go.kr/page?x=1#frag" = "https://yc.go.kr/page?x=1" := by decide
example : (urlparse "https://yc.go.kr/main.do").netloc = "yc.go.kr" := by decide
example : (urlparse "https://yc.go.kr/a/b;p?q=1#f" ) =
    ⟨"https", "yc.go.kr", "/a/b", "p", "q=1", "f"⟩ := by decide

/-! ### Elementary facts about one merged result -/

theorem process_page_fst (render : Render) (url : String) :
    (process_page render url).1 = url := by
  unfold process_page
  cases render url <;> rfl

theorem mergeResult_visited (st : CrawlState) (r : String × Finset String × Option String) :
    (mergeResult st r).visited = insert r.1 st.visited := by
  unfold mergeResult
  split <;> rfl

theorem mergeResult_visited_card_le (st : CrawlState) (r : String × Finset String × Option String) :
    (mergeResult st r).visited.card ≤ st.visited.card + 1 := by
  rw [mergeResult_visited]
  exact Finset.card_insert_le _ _

theorem mergeResult_visited_subset (st : CrawlState) (r : String × Finset String × Option String) :
    st.visited ⊆ (mergeResult st r).visited := by
  rw [mergeResult_visited]
  exact Finset.subset_insert _ _

theorem mergeResult_allLinks_subset (st : CrawlState) (r : String × Finset String × Option String) :
    st.allLinks ⊆ (mergeResult st r).allLinks := by
  unfold mergeResult
  split
  · exact subset_rfl
  · exact Finset.subset_union_left

theorem mergeResult_failed_subset (st : CrawlState) (r : String × Finset String × Option String) :
    st.failedUrls ⊆ (mergeResult st r).failedUrls := by
  unfold mergeResult
  split
  · exact Finset.subset_insert _ _
  · exact subset_rfl

theorem mergeResult_failed_visited (st : CrawlState) (r : String × Finset String × Option String)
    (h : st.failedUrls ⊆ st.visited) :
    (mergeResult st r).failedUrls ⊆ (mergeResult st r).visited := by
  unfold mergeResult
  split
  · exact Finset.insert_subset_insert _ h
  · exact h.trans (Finset.subset_insert _ _)

/-! ### Facts about folding a whole batch of results -/

theorem foldl_merge_visited_card_le :
    ∀ (rs : List (String × Finset String × Option String)) (st : CrawlState),
      (rs.foldl mergeResult st).visited.card ≤ st.visited.card + rs.length := by
  intro rs
  induction rs with
  | nil => intro st; simp
  | cons r rs ih =>
    intro st
    have h1 : ((r :: rs).foldl mergeResult st) = rs.foldl mergeResult (mergeResult st r) := rfl
    have h2 := ih (mergeResult st r)
    have h3 := mergeResult_visited_card_le st r
    rw [h1]
    simp only [List.length_cons]
    omega

theorem foldl_merge_visited_subset :
    ∀ (rs : List (String × Finset String × Option String)) (st : CrawlState),
      st.visited ⊆ (rs.foldl mergeResult st).visited := by
  intro rs
  induction rs with
  | nil => intro st; exact subset_rfl
  | cons r rs ih =>
    intro st
    exact (mergeResult_visited_subset st r).trans (ih (mergeResult st r))

theorem foldl_merge_allLinks_subset :
    ∀ (rs : List (String × Finset String × Option String)) (st : CrawlState),
      st.allLinks ⊆ (rs.foldl mergeResult st).allLinks := by
  intro rs
  induction rs with
  | nil => intro st; exact subset_rfl
  | cons r rs ih =>
    intro st
    exact (mergeResult_allLinks_subset st r).trans (ih (mergeResult st r))

theorem foldl_merge_failed_subset :
    ∀ (rs : List (String × Finset String × Option String)) (st : CrawlState),
      st.failedUrls ⊆ (rs.foldl mergeResult st).failedUrls := by
  intro rs
  induction rs with
  | nil => intro st; exact subset_rfl
  | cons r rs ih =>
    intro st
    exact (mergeResult_failed_subset st r).trans (ih (mergeResult st r))

theorem foldl_merge_failed_visited :
    ∀ (rs : List (String × Finset String × Option String)) (st : CrawlState),
      st.failedUrls ⊆ st.visited →
      (rs.foldl mergeResult st).failedUrls ⊆ (rs.foldl mergeResult st).visited := by
  intro rs
  induction rs with
  | nil => intro st h; exact h
  | cons r rs ih =>
    intro st h
    exact ih (mergeResult st r) (mergeResult_failed_visited st r h)

/-! ### Facts about one round -/

theorem runRound_visited_card (render : Render) (st : CrawlState) (urls : List String) :
    (runRound render st urls).visited.card ≤ st.visited.card + urls.length := by
  unfold runRound
  have h := foldl_merge_visited_card_le (urls.map (process_page render))
      { st with toVisit := st.toVisit \ urls.toFinset }
  simpa using h

theorem runRound_allLinks_subset (render : Render) (st : CrawlState) (urls : List String) :
    st.allLinks ⊆ (runRound render st urls).allLinks :=
  foldl_merge_allLinks_subset (urls.map (process_page render))
    { st with toVisit := st.toVisit \ urls.toFinset }

theorem runRound_failed_subset (render : Render) (st : CrawlState) (urls : List String) :
    st.failedUrls ⊆ (runRound render st urls).failedUrls :=
  foldl_merge_failed_subset (urls.map (process_page render))
    { st with toVisit := st.toVisit \ urls.toFinset }

theorem runRound_failed_visited (render : Render) (st : CrawlState) (urls : List String)
    (h : st.failedUrls ⊆ st.visited) :
    (runRound render st urls).failedUrls ⊆ (runRound render st urls).visited :=
  foldl_merge_failed_visited (urls.map (process_page render))
    { st with toVisit := st.toVisit \ urls.toFinset } h

theorem stepRel_visited_card_lt {render : Render} {W maxP : Nat} {st st' : CrawlState}
    (h : StepRel render W maxP st st') : st'.visited.card < maxP + W := by
  obtain ⟨urls, hs⟩ := h
  have h1 : st'.visited.card ≤ st.visited.card + urls.length := by
    rw [hs.result]; exact runRound_visited_card render st urls
  have h2 : urls.length ≤ W := by
    rw [hs.length_eq]; exact Nat.min_le_left _ _
  have h3 := hs.under_cap
  omega

theorem stepRel_allLinks_subset {render : Render} {W maxP : Nat} {st st' : CrawlState}
    (h : StepRel render W maxP st st') : st.allLinks ⊆ st'.allLinks := by
  obtain ⟨urls, hs⟩ := h
  rw [hs.result]
  exact runRound_allLinks_subset render st urls

theorem stepRel_failed_subset {render : Render} {W maxP : Nat} {st st' : CrawlState}
    (h : StepRel render W maxP st st') : st.failedUrls ⊆ st'.failedUrls := by
  obtain ⟨urls, hs⟩ := h
  rw [hs.result]
  exact runRound_failed_subset render st urls

theorem stepRel_failed_visited {render : Render} {W maxP : Nat} {st st' : CrawlState}
    (h : StepRel render W maxP st st') (hfv : st.failedUrls ⊆ st.visited) :
    st'.failedUrls ⊆ st'.visited := by
  obtain ⟨urls, hs⟩ := h
  rw [hs.result]
  exact runRound_failed_visited render st urls hfv

theorem reaches_allLinks_subset {render : Render} {W maxP : Nat} {st st' : CrawlState}
    (h : Reaches render W maxP st st') : st.allLinks ⊆ st'.allLinks := by
  induction h with
  | refl => exact subset_rfl
  | tail _ hstep ih => exact ih.trans (stepRel_allLinks_subset hstep)

theorem reaches_failed_subset {render : Render} {W maxP : Nat} {st st' : CrawlState}
    (h : Reaches render W maxP st st') : st.failedUrls ⊆ st'.failedUrls := by
  induction h with
  | refl => exact subset_rfl
  | tail _ hstep ih => exact ih.trans (stepRel_failed_subset hstep)

/-! ### A concrete one-round crawl, used to instantiate several theorems:
with `renderFail` every fetch fails, so the crawl visits the seed, records it
as failed and drains the frontier. -/

theorem smallStepOn :
    StepOn renderFail CONCURRENT_WORKERS MAX_PAGES [START_URL] (initState START_URL) smallFinal :=
  ⟨by decide, by decide, by decide, by decide, by decide, rfl⟩

theorem smallReaches :
    Reaches renderFail CONCURRENT_WORKERS MAX_PAGES (initState START_URL) smallFinal :=
  Relation.ReflTransGen.single ⟨[START_URL], smallStepOn⟩

theorem smallTerminal : Terminal MAX_PAGES smallFinal :=
  Or.inl (by decide)

/-! ### Claim C6 -/

/-- C6: for every URL, `process_page` never propagates an exception: it
returns `(url, links, None)` on success and `(url, ∅, e)` with a non-`None`
error `e` on any failure. -/
theorem C6_process_page_normalizes (render : Render) (url : String) :
    (∃ links, process_page render url = (url, links, none)) ∨
    (∃ e, process_page render url = (url, (∅ : Finset String), some e)) := by
  unfold process_page
  cases render url with
  | ok hrefs => exact Or.inl ⟨_, rfl⟩
  | error e => exact Or.inr ⟨e, rfl⟩

/-! ### Claim C7 -/

/-- C7: any href whose path-plus-query portion (of the stripped, case-folded
href, as the code computes it) ends in an excluded extension is rejected by
`is_valid_link`, regardless of its host. -/
theorem C7_excluded_extension_invalid (href : String)
    (h : ∃ ext ∈ EXCLUDED_EXTENSIONS,
      pyEndsWith ((urlparse (pyLower (pyStrip href))).path ++
        (urlparse (pyLower (pyStrip href))).query) ext = true) :
    is_valid_link href = false := by
  have hany : EXCLUDED_EXTENSIONS.any
      (fun ext => pyEndsWith ((urlparse (pyLower (pyStrip href))).path ++
        (urlparse (pyLower (pyStrip href))).query) ext) = true := by
    obtain ⟨ext, hm, he⟩ := h
    exact List.any_eq_true.mpr ⟨ext, hm, he⟩
  simp [is_valid_link, hany]

theorem C7_witness :
    (∃ ext ∈ EXCLUDED_EXTENSIONS,
      pyEndsWith ((urlparse (pyLower (pyStrip "https://yc.go.kr/doc.pdf"))).path ++
        (urlparse (pyLower (pyStrip "https://yc.go.kr/doc.pdf"))).query) ext = true) ∧
    is_valid_link "https://yc.go.kr/doc.pdf" = false :=
  ⟨by decide, C7_excluded_extension_invalid _ (by decide)⟩

/-! ### Claim C8 -/

/-- C8: `all_links` only ever grows across rounds of the crawl loop: along any
sequence of rounds it is monotone under inclusion, so its size never
decreases. -/
theorem C8_allLinks_monotone {render : Render} {W maxP : Nat} {st st' : CrawlState}
    (h : Reaches render W maxP st st') :
    st.allLinks ⊆ st'.allLinks ∧ st.allLinks.card ≤ st'.allLinks.card := by
  have hsub := reaches_allLinks_subset h
  exact ⟨hsub, Finset.card_le_card hsub⟩

theorem C8_witness :
    (initState START_URL).allLinks ⊆ smallFinal.allLinks ∧
    (initState START_URL).allLinks.card ≤ smallFinal.allLinks.card :=
  C8_allLinks_monotone smallReaches

/-! ### Claim C9 -/

/-- C9: at every state reachable from the initial one, the failed set is
contained in the visited set: a URL recorded as failed was added to `visited`
in the same result-processing step. -/
theorem C9_failed_subset_visited {render : Render} {W maxP : Nat} {seed : String}
    {st : CrawlState} (h : Reaches render W maxP (initState seed) st) :
    st.failedUrls ⊆ st.visited := by
  induction h with
  | refl => exact subset_rfl
  | tail _ hstep ih => exact stepRel_failed_visited hstep ih

theorem C9_witness : smallFinal.failedUrls ⊆ smallFinal.visited :=
  C9_failed_subset_visited smallReaches

/-! ### Claim C10 -/

/-- C10: when the loop exits, the visited count is strictly below
`MAX_PAGES + CONCURRENT_WORKERS`: a round starts only under the cap and adds
at most one batch of URLs. -/
theorem C10_visited_overshoot_bound {render : Render} {st : CrawlState}
    (h : Reaches render CONCURRENT_WORKERS MAX_PAGES (initState START_URL) st)
    (_ht : Terminal MAX_PAGES st) :
    st.visited.card < MAX_PAGES + CONCURRENT_WORKERS := by
  rcases Relation.ReflTransGen.cases_tail h with heq | ⟨p, _, hstep⟩
  · rw [heq]
    decide
  · exact stepRel_visited_card_lt hstep

theorem C10_witness : smallFinal.visited.card < MAX_PAGES + CONCURRENT_WORKERS :=
  C10_visited_overshoot_bound smallReaches smallTerminal

/-! ### Structural case lemmas for `mergeResult` -/

theorem mergeResult_error (st : CrawlState) (r : String × Finset String × Option String)
    (h : errorTruthy r.2.2 = true) :
    mergeResult st r =
      { st with visited := insert r.1 st.visited, failedUrls := insert r.1 st.failedUrls } := by
  simp [mergeResult, h]

theorem mergeResult_ok (st : CrawlState) (r : String × Finset String × Option String)
    (h : errorTruthy r.2.2 = false) :
    mergeResult st r =
      { toVisit := st.toVisit ∪ ((r.2.1 \ insert r.1 st.visited) \ st.toVisit),
        visited := insert r.1 st.visited,
        allLinks := st.allLinks ∪ ((r.2.1 \ insert r.1 st.visited) \ st.toVisit),
        failedUrls := st.failedUrls } := by
  simp [mergeResult, h]

theorem map_fst_process (render : Render) (urls : List String) :
    (urls.map (process_page render)).map Prod.fst = urls := by
  rw [List.map_map]
  have h : Prod.fst ∘ process_page render = id := funext fun u => process_page_fst render u
  rw [h, List.map_id]

theorem runRound_nil (render : Render) (st : CrawlState) : runRound render st [] = st := by
  cases st
  simp [runRound]

/-! ### What a round can put into the frontier and the visited set -/

/-- Anything in the frontier after merging a batch was in the frontier before,
or was not yet visited when it was merged in. -/
theorem foldl_toVisit_cases :
    ∀ (rs : List (String × Finset String × Option String)) (s : CrawlState) (w : String),
      w ∈ (rs.foldl mergeResult s).toVisit → w ∈ s.toVisit ∨ w ∉ s.visited := by
  intro rs
  induction rs with
  | nil => intro s w hw; exact Or.inl hw
  | cons r rs ih =>
    intro s w hw
    rcases ih (mergeResult s r) w hw with h1 | h2
    · by_cases he : errorTruthy r.2.2
      · rw [mergeResult_error s r he] at h1
        exact Or.inl h1
      · rw [mergeResult_ok s r (by simpa using he)] at h1
        rcases Finset.mem_union.mp h1 with ha | hb
        · exact Or.inl ha
        · have := (Finset.mem_sdiff.mp (Finset.mem_sdiff.mp hb).1).2
          exact Or.inr fun hv => this (Finset.mem_insert_of_mem hv)
    · rw [mergeResult_visited] at h2
      exact Or.inr fun hv => h2 (Finset.mem_insert_of_mem hv)

/-- The visited set after merging a batch is contained in the old visited set
together with the batch. -/
theorem foldl_visited_subset_union :
    ∀ (rs : List (String × Finset String × Option String)) (s : CrawlState),
      (rs.foldl mergeResult s).visited ⊆ s.visited ∪ (rs.map Prod.fst).toFinset := by
  intro rs
  induction rs with
  | nil => intro s; simp
  | cons r rs ih =>
    intro s
    intro w hw
    have := ih (mergeResult s r) hw
    rw [mergeResult_visited] at this
    rcases Finset.mem_union.mp this with h1 | h2
    · rcases Finset.mem_insert.mp h1 with he | hm
      · subst he
        simp
      · exact Finset.mem_union_left _ hm
    · apply Finset.mem_union_right
      simp only [List.map_cons, List.toFinset_cons]
      exact Finset.mem_insert_of_mem h2

/-! ### Claim C1.  The counterexample: with the program's own configuration,
the seed page links to `a` and `b`; in round two `a` and `b` form the batch,
`a`'s result (containing a link to `b`) completes first, so `b` re-enters the
frontier although it is already visited, and the next round dispatches `b` a
second time. -/

theorem c1Step1 :
    StepOn renderC1 CONCURRENT_WORKERS MAX_PAGES [START_URL] (initState START_URL) c1Mid :=
  ⟨by decide, by decide, by decide, by decide, by decide, rfl⟩

theorem c1Step2 : StepOn renderC1 CONCURRENT_WORKERS MAX_PAGES [urlA, urlB] c1Mid c1Bad :=
  ⟨by decide, by decide, by decide, by decide, by decide, rfl⟩

theorem c1Step3 : StepOn renderC1 CONCURRENT_WORKERS MAX_PAGES [urlB, urlC] c1Bad c1Next :=
  ⟨by decide, by decide, by decide, by decide, by decide, rfl⟩

/-- C1 counterexample: after a complete round of `crawl_all_parallel` (with
the program's own worker count and cap), `urlB` sits in the frontier *and* in
the visited set, and the very next round's batch dispatches the already
visited `urlB` to `process_page` a second time. -/
theorem C1_counterexample :
    Reaches renderC1 CONCURRENT_WORKERS MAX_PAGES (initState START_URL) c1Bad ∧
    urlB ∈ c1Bad.toVisit ∧ urlB ∈ c1Bad.visited ∧
    StepOn renderC1 CONCURRENT_WORKERS MAX_PAGES [urlB, urlC] c1Bad c1Next :=
  ⟨Relation.ReflTransGen.tail (Relation.ReflTransGen.single ⟨[START_URL], c1Step1⟩)
      ⟨[urlA, urlB], c1Step2⟩,
    by decide, by decide, c1Step3⟩

/-- C1 amended: a crawl round never creates frontier/visited overlap outside
its own batch — after a round, the overlap is contained in the pre-round
overlap together with the round's batch; in particular a round that begins
with disjoint frontier and visited ends with overlap only inside its batch.
(Such overlap, once created by a batch URL linked to by an earlier-completing
batch mate, can persist across later rounds until the URL is re-selected into
a batch and dispatched to `process_page` a second time.) -/
theorem C1_amended {render : Render} {W maxP : Nat} {urls : List String} {st st' : CrawlState}
    (hstep : StepOn render W maxP urls st st') :
    st'.toVisit ∩ st'.visited ⊆ (st.toVisit ∩ st.visited) ∪ urls.toFinset ∧
      (Disjoint st.toVisit st.visited → st'.toVisit ∩ st'.visited ⊆ urls.toFinset) := by
  have hmain : st'.toVisit ∩ st'.visited ⊆ (st.toVisit ∩ st.visited) ∪ urls.toFinset := by
    intro w hw
    obtain ⟨hwt, hwv⟩ := Finset.mem_inter.mp hw
    rw [hstep.result] at hwt hwv
    unfold runRound at hwt hwv
    have hcases := foldl_toVisit_cases (urls.map (process_page render))
        { st with toVisit := st.toVisit \ urls.toFinset } w hwt
    have hvis := foldl_visited_subset_union (urls.map (process_page render))
        { st with toVisit := st.toVisit \ urls.toFinset } hwv
    rw [map_fst_process] at hvis
    rcases Finset.mem_union.mp hvis with h1 | h2
    · rcases hcases with hA | hB
      · have hwtv : w ∈ st.toVisit := (Finset.mem_sdiff.mp hA).1
        exact Finset.mem_union_left _ (Finset.mem_inter.mpr ⟨hwtv, h1⟩)
      · exact absurd h1 hB
    · exact Finset.mem_union_right _ h2
  refine ⟨hmain, fun hd => ?_⟩
  intro w hw
  rcases Finset.mem_union.mp (hmain hw) with h1 | h2
  · obtain ⟨hwt, hwv⟩ := Finset.mem_inter.mp h1
    exact absurd hwv (Finset.disjoint_left.mp hd hwt)
  · exact h2

theorem C1_amended_witness :
    c1Mid.toVisit ∩ c1Mid.visited ⊆
        ((initState START_URL).toVisit ∩ (initState START_URL).visited) ∪
          [START_URL].toFinset ∧
      (Disjoint (initState START_URL).toVisit (initState START_URL).visited →
        c1Mid.toVisit ∩ c1Mid.visited ⊆ [START_URL].toFinset) :=
  C1_amended c1Step1

/-! ### Claim C3.  The counterexample: two runs whose only difference is the
raw failure message of the fetch of `urlB` produce identical final states —
the failed-URL record keeps no failure reason at all. -/

theorem c3Step1 : StepOn (render3 "Timeout 7000ms exceeded.") CONCURRENT_WORKERS MAX_PAGES
    [START_URL] (initState START_URL) (c3Mid "Timeout 7000ms exceeded.") :=
  ⟨by decide, by decide, by decide, by decide, by decide, rfl⟩

theorem c3Step2 : StepOn (render3 "Timeout 7000ms exceeded.") CONCURRENT_WORKERS MAX_PAGES
    [urlB] (c3Mid "Timeout 7000ms exceeded.") (c3Final "Timeout 7000ms exceeded.") :=
  ⟨by decide, by decide, by decide, by decide, by decide, rfl⟩

/-- C3 counterexample: the fetch of `urlB` errors during a real, terminating
crawl, yet two different raw failure messages leave the exact same final
state: the failed-URL record is a bare set of URLs and keeps no reason. -/
theorem C3_counterexample :
    c3Final "Timeout 7000ms exceeded." = c3Final "net::ERR_NAME_NOT_RESOLVED" ∧
    "Timeout 7000ms exceeded." ≠ "net::ERR_NAME_NOT_RESOLVED" ∧
    Reaches (render3 "Timeout 7000ms exceeded.") CONCURRENT_WORKERS MAX_PAGES
      (initState START_URL) (c3Final "Timeout 7000ms exceeded.") ∧
    Terminal MAX_PAGES (c3Final "Timeout 7000ms exceeded.") ∧
    urlB ∈ (c3Final "Timeout 7000ms exceeded.").failedUrls :=
  ⟨by decide, by decide,
    Relation.ReflTransGen.tail (Relation.ReflTransGen.single ⟨[START_URL], c3Step1⟩)
      ⟨[urlB], c3Step2⟩,
    Or.inl (by decide), by decide⟩

theorem foldl_merge_failed_mem :
    ∀ (rs : List (String × Finset String × Option String)) (s : CrawlState)
      (r : String × Finset String × Option String),
      r ∈ rs → errorTruthy r.2.2 = true → r.1 ∈ (rs.foldl mergeResult s).failedUrls := by
  intro rs
  induction rs with
  | nil => intro s r hr; exact absurd hr (List.not_mem_nil r)
  | cons r' rs ih =>
    intro s r hr he
    rcases List.mem_cons.mp hr with heq | hm
    · subst heq
      have hone : r.1 ∈ (mergeResult s r).failedUrls := by
        rw [mergeResult_error s r he]
        exact Finset.mem_insert_self _ _
      exact foldl_merge_failed_subset rs (mergeResult s r) hone
    · exact ih (mergeResult s r') r hm he

/-- C3 amended: the failed-URL record is a set of URLs with no reason
attached; whenever a fetch errors with a non-empty message, that URL is
recorded and stays recorded for the rest of the crawl, which continues. -/
theorem C3_amended {render : Render} {W maxP : Nat} {urls : List String}
    {st st' stF : CrawlState} {url e : String}
    (hstep : StepOn render W maxP urls st st') (hu : url ∈ urls)
    (he : render url = Except.error e) (hne : e ≠ "")
    (hreach : Reaches render W maxP st' stF) :
    url ∈ stF.failedUrls := by
  apply reaches_failed_subset hreach
  rw [hstep.result]
  unfold runRound
  have hmem : process_page render url ∈ urls.map (process_page render) :=
    List.mem_map_of_mem _ hu
  have hpp : process_page render url = (url, (∅ : Finset String), some e) := by
    unfold process_page
    rw [he]
  have htr : errorTruthy (process_page render url).2.2 = true := by
    rw [hpp]
    simpa [errorTruthy] using hne
  have := foldl_merge_failed_mem (urls.map (process_page render))
      { st with toVisit := st.toVisit \ urls.toFinset } (process_page render url) hmem htr
  rw [hpp] at this
  exact this

theorem C3_amended_witness : urlB ∈ (c3Final "Timeout 7000ms exceeded.").failedUrls :=
  C3_amended (e := "Timeout 7000ms exceeded.") c3Step2 (by decide) rfl (by decide)
    Relation.ReflTransGen.refl

/-! ### Claim C4.  What `all_links` accumulates. -/

/-- Merging one result preserves `Known`, strengthened with a pending set `P`
of batch URLs still to be merged. -/
theorem merge_pending {seed : String} (s : CrawlState)
    (r : String × Finset String × Option String) (P : Finset String)
    (h : s.toVisit ∪ s.visited ∪ insert r.1 P ⊆ insert seed s.allLinks) :
    (mergeResult s r).toVisit ∪ (mergeResult s r).visited ∪ P ⊆
      insert seed (mergeResult s r).allLinks := by
  have h' : ∀ w : String, (w ∈ s.toVisit ∨ w ∈ s.visited) ∨ w = r.1 ∨ w ∈ P →
      w = seed ∨ w ∈ s.allLinks := by
    intro w hx
    have hm := h (show w ∈ s.toVisit ∪ s.visited ∪ insert r.1 P by
      simp only [Finset.mem_union, Finset.mem_insert]
      tauto)
    simpa only [Finset.mem_insert] using hm
  intro w hw
  have h'' := h' w
  by_cases he : errorTruthy r.2.2
  · rw [mergeResult_error s r he] at hw ⊢
    simp only [Finset.mem_union, Finset.mem_insert] at hw ⊢
    tauto
  · rw [mergeResult_ok s r (by simpa using he)] at hw ⊢
    simp only [Finset.mem_union, Finset.mem_insert] at hw ⊢
    tauto

theorem foldl_pending {seed : String} :
    ∀ (rs : List (String × Finset String × Option String)) (s : CrawlState),
      s.toVisit ∪ s.visited ∪ (rs.map Prod.fst).toFinset ⊆ insert seed s.allLinks →
      (rs.foldl mergeResult s).toVisit ∪ (rs.foldl mergeResult s).visited ⊆
        insert seed (rs.foldl mergeResult s).allLinks := by
  intro rs
  induction rs with
  | nil =>
    intro s h
    simp only [List.map_nil, List.toFinset_nil, Finset.union_empty] at h
    exact h
  | cons r rs ih =>
    intro s h
    apply ih
    apply merge_pending
    simpa only [List.map_cons, List.toFinset_cons] using h

theorem stepRel_known {render : Render} {W maxP : Nat} {seed : String} {st st' : CrawlState}
    (h : StepRel render W maxP st st') (hk : Known seed st) : Known seed st' := by
  obtain ⟨urls, hs⟩ := h
  rw [hs.result]
  unfold runRound
  apply foldl_pending
  rw [map_fst_process]
  intro w hw
  apply hk
  simp only [Finset.mem_union] at hw ⊢
  rcases hw with (h1 | h2) | h3
  · exact Or.inl (Finset.mem_sdiff.mp h1).1
  · exact Or.inr h2
  · exact Or.inl (hs.subset h3)

theorem reaches_known {render : Render} {W maxP : Nat} {seed : String} {st : CrawlState}
    (h : Reaches render W maxP (initState seed) st) : Known seed st := by
  induction h with
  | refl =>
    intro w hw
    simp only [initState, Finset.union_empty, Finset.mem_singleton] at hw
    simp [hw]
  | tail _ hstep ih => exact stepRel_known hstep ih

/-- Once the seed is visited, no later merge can put it into `all_links`. -/
theorem foldl_seed_safe {seed : String} :
    ∀ (rs : List (String × Finset String × Option String)) (s : CrawlState),
      seed ∈ s.visited → seed ∉ s.allLinks →
      seed ∈ (rs.foldl mergeResult s).visited ∧ seed ∉ (rs.foldl mergeResult s).allLinks := by
  intro rs
  induction rs with
  | nil => intro s h1 h2; exact ⟨h1, h2⟩
  | cons r rs ih =>
    intro s h1 h2
    apply ih
    · rw [mergeResult_visited]
      exact Finset.mem_insert_of_mem h1
    · by_cases he : errorTruthy r.2.2
      · rw [mergeResult_error s r he]
        exact h2
      · rw [mergeResult_ok s r (by simpa using he)]
        intro hmem
        rcases Finset.mem_union.mp hmem with ha | hb
        · exact h2 ha
        · have := (Finset.mem_sdiff.mp (Finset.mem_sdiff.mp hb).1).2
          exact this (Finset.mem_insert_of_mem h1)

theorem nodup_subset_singleton {urls : List String} {a : String}
    (hn : urls.Nodup) (hs : urls.toFinset ⊆ {a}) : urls = [] ∨ urls = [a] := by
  match urls with
  | [] => exact Or.inl rfl
  | [x] =>
    have hx : x ∈ ({a} : Finset String) := hs (by simp)
    rw [Finset.mem_singleton] at hx
    subst hx
    exact Or.inr rfl
  | x :: y :: t =>
    have hx : x ∈ ({a} : Finset String) := hs (by simp)
    have hy : y ∈ ({a} : Finset String) := hs (by simp)
    rw [Finset.mem_singleton] at hx hy
    subst hx
    subst hy
    simp at hn

theorem stepRel_seedSafe {render : Render} {W maxP : Nat} {seed : String} {st st' : CrawlState}
    (h : StepRel render W maxP st st') (hi : SeedSafe seed st) : SeedSafe seed st' := by
  obtain ⟨urls, hs⟩ := h
  obtain ⟨hnotin, hcase⟩ := hi
  rcases hcase with hfront | hvisited
  · -- the frontier is exactly the seed, so the batch is `[]` or `[seed]`
    rcases nodup_subset_singleton hs.nodup (hfront ▸ hs.subset) with hnil | hone
    · subst hnil
      rw [hs.result, runRound_nil]
      exact ⟨hnotin, Or.inl hfront⟩
    · subst hone
      rw [hs.result]
      unfold runRound
      have hfst : (process_page render seed).1 = seed := process_page_fst render seed
      constructor
      · -- seed cannot enter allLinks while it is being inserted into visited
        show seed ∉ (mergeResult _ (process_page render seed)).allLinks
        by_cases he : errorTruthy (process_page render seed).2.2
        · rw [mergeResult_error _ _ he]
          exact hnotin
        · rw [mergeResult_ok _ _ (by simpa using he)]
          intro hmem
          rcases Finset.mem_union.mp hmem with ha | hb
          · exact hnotin ha
          · have := (Finset.mem_sdiff.mp (Finset.mem_sdiff.mp hb).1).2
            rw [hfst] at this
            exact this (Finset.mem_insert_self _ _)
      · refine Or.inr ?_
        show seed ∈ (mergeResult _ (process_page render seed)).visited
        rw [mergeResult_visited, hfst]
        exact Finset.mem_insert_self _ _
  · rw [hs.result]
    unfold runRound
    have := foldl_seed_safe (urls.map (process_page render))
        { st with toVisit := st.toVisit \ urls.toFinset } hvisited hnotin
    exact ⟨this.2, Or.inr this.1⟩

theorem reaches_seed_not_allLinks {render : Render} {W maxP : Nat} {seed : String}
    {st : CrawlState} (h : Reaches render W maxP (initState seed) st) :
    seed ∉ st.allLinks := by
  have hinv : SeedSafe seed st := by
    induction h with
    | refl => exact ⟨Finset.not_mem_empty seed, Or.inl rfl⟩
    | tail _ hstep ih => exact stepRel_seedSafe hstep ih
  exact hinv.1

/-- A filter-accepted href observed in a successful merged result is, for the
rest of the crawl, in `all_links` — except possibly the seed. -/
theorem foldl_observe {seed : String} :
    ∀ (rs : List (String × Finset String × Option String)) (s : CrawlState)
      (r : String × Finset String × Option String) (w : String),
      s.toVisit ∪ s.visited ∪ (rs.map Prod.fst).toFinset ⊆ insert seed s.allLinks →
      r ∈ rs → errorTruthy r.2.2 = false → w ∈ r.2.1 →
      w ∈ insert seed (rs.foldl mergeResult s).allLinks := by
  intro rs
  induction rs with
  | nil => intro s r w _ hr; exact absurd hr (List.not_mem_nil r)
  | cons r' rs ih =>
    intro s r w hp hr he hw
    rcases List.mem_cons.mp hr with heq | hm
    · subst heq
      have hhead : w ∈ insert seed (mergeResult s r).allLinks := by
        rw [mergeResult_ok s r he]
        by_cases hF : w ∈ (r.2.1 \ insert r.1 s.visited) \ s.toVisit
        · exact Finset.mem_insert_of_mem (Finset.mem_union_right _ hF)
        · have hknown : w = r.1 ∨ w ∈ s.visited ∨ w ∈ s.toVisit := by
            by_cases ht : w ∈ s.toVisit
            · exact Or.inr (Or.inr ht)
            · have h1 : w ∉ r.2.1 \ insert r.1 s.visited := by
                intro hc
                exact hF (Finset.mem_sdiff.mpr ⟨hc, ht⟩)
              have h2 : w ∈ insert r.1 s.visited := by
                by_contra hc
                exact h1 (Finset.mem_sdiff.mpr ⟨hw, hc⟩)
              rcases Finset.mem_insert.mp h2 with h3 | h4
              · exact Or.inl h3
              · exact Or.inr (Or.inl h4)
          have := hp (show w ∈ s.toVisit ∪ s.visited ∪ (((r :: rs).map Prod.fst).toFinset) by
            simp only [List.map_cons, List.toFinset_cons, Finset.mem_union, Finset.mem_insert]
            tauto)
          rcases Finset.mem_insert.mp this with hseed | hall
          · exact Finset.mem_insert.mpr (Or.inl hseed)
          · exact Finset.mem_insert_of_mem (Finset.mem_union_left _ hall)
      have hmono : (mergeResult s r).allLinks ⊆
          ((r :: rs).foldl mergeResult s).allLinks :=
        foldl_merge_allLinks_subset rs (mergeResult s r)
      rcases Finset.mem_insert.mp hhead with hseed | hall
      · exact Finset.mem_insert.mpr (Or.inl hseed)
      · exact Finset.mem_insert_of_mem (hmono hall)
    · exact ih (mergeResult s r') r w
        (merge_pending s r' _ (by simpa only [List.map_cons, List.toFinset_cons] using hp))
        hm he hw

theorem c4Step1 :
    StepOn render4 CONCURRENT_WORKERS MAX_PAGES [START_URL] (initState START_URL) c4Mid :=
  ⟨by decide, by decide, by decide, by decide, by decide, rfl⟩

theorem c4Step2 : StepOn render4 CONCURRENT_WORKERS MAX_PAGES [urlA] c4Mid c4Final :=
  ⟨by decide, by decide, by decide, by decide, by decide, rfl⟩

/-- C4 counterexample: a complete, frontier-drained crawl in which the fetch
of `urlA` returns the filter-accepted href `START_URL`, yet the final
`all_links` does not contain it. -/
theorem C4_counterexample :
    Reaches render4 CONCURRENT_WORKERS MAX_PAGES (initState START_URL) c4Final ∧
    Terminal MAX_PAGES c4Final ∧
    render4 urlA = Except.ok [START_URL] ∧
    is_valid_link START_URL = true ∧
    urlA ∈ c4Final.visited ∧
    START_URL ∉ c4Final.allLinks :=
  ⟨Relation.ReflTransGen.tail (Relation.ReflTransGen.single ⟨[START_URL], c4Step1⟩)
      ⟨[urlA], c4Step2⟩,
    Or.inl (by decide), rfl, by decide, by decide, by decide⟩

/-- C4 amended: `all_links` contains every unique filter-accepted URL
(fragment-stripped) observed among the hrefs of any merged fetch — except the
seed URL, which never enters `all_links`, even when a fetched page links to
it. -/
theorem C4_amended {render : Render} {W maxP : Nat} {seed : String} {urls : List String}
    {st1 st2 stF : CrawlState} {url href : String} {hrefs : List String}
    (h0 : Reaches render W maxP (initState seed) st1)
    (hstep : StepOn render W maxP urls st1 st2)
    (h2 : Reaches render W maxP st2 stF)
    (hu : url ∈ urls) (hr : render url = Except.ok hrefs)
    (hh : href ∈ hrefs) (hv : is_valid_link href = true) :
    stripFragment href ∈ insert seed stF.allLinks ∧ seed ∉ stF.allLinks := by
  constructor
  · have hk : Known seed st1 := reaches_known h0
    have hpp : process_page render url =
        (url, ((hrefs.filter is_valid_link).map stripFragment).toFinset, none) := by
      unfold process_page
      rw [hr]
    have hmem : process_page render url ∈ urls.map (process_page render) :=
      List.mem_map_of_mem _ hu
    have hwmem : stripFragment href ∈ (process_page render url).2.1 := by
      rw [hpp]
      simp only [List.mem_toFinset, List.mem_map]
      exact ⟨href, List.mem_filter.mpr ⟨hh, hv⟩, rfl⟩
    have hobs := foldl_observe (urls.map (process_page render))
        { st1 with toVisit := st1.toVisit \ urls.toFinset }
        (process_page render url) (stripFragment href)
        (by
          rw [map_fst_process]
          intro w hw
          apply hk
          simp only [Finset.mem_union] at hw ⊢
          rcases hw with (hA | hB) | hC
          · exact Or.inl (Finset.mem_sdiff.mp hA).1
          · exact Or.inr hB
          · exact Or.inl (hstep.subset hC))
        hmem (by rw [hpp]; rfl) hwmem
    have hst2 : stripFragment href ∈ insert seed st2.allLinks := by
      rw [hstep.result]
      exact hobs
    exact (Finset.insert_subset_insert _ (reaches_allLinks_subset h2)) hst2
  · have hfull : Reaches render W maxP (initState seed) stF :=
      Relation.ReflTransGen.trans (Relation.ReflTransGen.tail h0 ⟨urls, hstep⟩) h2
    exact reaches_seed_not_allLinks hfull

theorem C4_amended_witness :
    stripFragment START_URL ∈ insert START_URL c4Final.allLinks ∧
    START_URL ∉ c4Final.allLinks :=
  C4_amended (Relation.ReflTransGen.single ⟨[START_URL], c4Step1⟩) c4Step2
    Relation.ReflTransGen.refl (by decide : urlA ∈ [urlA])
    (rfl : render4 urlA = Except.ok [START_URL])
    (by decide : START_URL ∈ [START_URL]) (by decide)

/-! ### Claim C5.  The spec's scenario, for every batch choice and completion
order: seed `S` yields `{A, B}`, `A` yields `{B, C}`, `B` errors, `C` yields
nothing; worker count 2, cap 100. -/

theorem nodup_subset_one {urls : List String} {a : String}
    (hs : urls.toFinset ⊆ {a}) (hl : urls.length = 1) : urls = [a] := by
  match urls with
  | [] => exact absurd hl (by simp)
  | [x] =>
    have hx : x ∈ ({a} : Finset String) := hs (by simp)
    rw [Finset.mem_singleton] at hx
    subst hx
    rfl
  | x :: y :: t =>
    exfalso
    simp only [List.length_cons] at hl
    omega

theorem nodup_subset_pair {urls : List String} {a b : String}
    (hn : urls.Nodup) (hs : urls.toFinset ⊆ {a, b}) (hl : urls.length = 2) :
    urls = [a, b] ∨ urls = [b, a] := by
  match urls with
  | [] => exact absurd hl (by simp)
  | [x] => exact absurd hl (by simp)
  | x :: y :: z :: t =>
    exfalso
    simp only [List.length_cons] at hl
    omega
  | [x, y] =>
    have hx : x ∈ ({a, b} : Finset String) := hs (by simp)
    have hy : y ∈ ({a, b} : Finset String) := hs (by simp)
    have hxy : x ≠ y := by
      simp only [List.nodup_cons, List.mem_singleton, List.mem_cons, List.not_mem_nil,
        or_false, List.nodup_nil] at hn
      exact hn.1
    simp only [Finset.mem_insert, Finset.mem_singleton] at hx hy
    rcases hx with hx | hx <;> rcases hy with hy | hy
    · exact absurd (hx.trans hy.symm) hxy
    · subst hx; subst hy; exact Or.inl rfl
    · subst hx; subst hy; exact Or.inr rfl
    · exact absurd (hx.trans hy.symm) hxy

/-- Two crawl states with mutually included components are equal. -/
theorem crawlState_eq_of {a b : CrawlState}
    (h1 : a.toVisit ⊆ b.toVisit) (h2 : b.toVisit ⊆ a.toVisit)
    (h3 : a.visited ⊆ b.visited) (h4 : b.visited ⊆ a.visited)
    (h5 : a.allLinks ⊆ b.allLinks) (h6 : b.allLinks ⊆ a.allLinks)
    (h7 : a.failedUrls ⊆ b.failedUrls) (h8 : b.failedUrls ⊆ a.failedUrls) : a = b := by
  cases a
  cases b
  simp only [CrawlState.mk.injEq]
  exact ⟨Finset.Subset.antisymm h1 h2, Finset.Subset.antisymm h3 h4,
    Finset.Subset.antisymm h5 h6, Finset.Subset.antisymm h7 h8⟩

theorem r5_01 : runRound render5 s5_0 [sUrl] = s5_1 :=
  crawlState_eq_of (by decide) (by decide) (by decide) (by decide)
    (by decide) (by decide) (by decide) (by decide)

theorem r5_1a : runRound render5 s5_1 [urlA, urlB] = s5_2a :=
  crawlState_eq_of (by decide) (by decide) (by decide) (by decide)
    (by decide) (by decide) (by decide) (by decide)

theorem r5_1b : runRound render5 s5_1 [urlB, urlA] = s5_2b :=
  crawlState_eq_of (by decide) (by decide) (by decide) (by decide)
    (by decide) (by decide) (by decide) (by decide)

theorem r5_2a1 : runRound render5 s5_2a [urlB, urlC] = s5_3 :=
  crawlState_eq_of (by decide) (by decide) (by decide) (by decide)
    (by decide) (by decide) (by decide) (by decide)

theorem r5_2a2 : runRound render5 s5_2a [urlC, urlB] = s5_3 :=
  crawlState_eq_of (by decide) (by decide) (by decide) (by decide)
    (by decide) (by decide) (by decide) (by decide)

theorem r5_2b : runRound render5 s5_2b [urlC] = s5_3 :=
  crawlState_eq_of (by decide) (by decide) (by decide) (by decide)
    (by decide) (by decide) (by decide) (by decide)

theorem step5 {st st' : CrawlState} (h : StepRel render5 2 100 st st') (hg : Good5 st) :
    Good5 st' := by
  obtain ⟨urls, hs⟩ := h
  rcases hg with h0 | h1 | h2a | h2b | h3
  · subst h0
    have hone : urls = [sUrl] := by
      apply nodup_subset_one hs.subset
      have := hs.length_eq
      simpa using this
    subst hone
    rw [hs.result, r5_01]
    exact Or.inr (Or.inl rfl)
  · subst h1
    have hpair : urls = [urlA, urlB] ∨ urls = [urlB, urlA] := by
      apply nodup_subset_pair hs.nodup hs.subset
      have := hs.length_eq
      simpa using this
    rcases hpair with hab | hba
    · subst hab
      rw [hs.result, r5_1a]
      exact Or.inr (Or.inr (Or.inl rfl))
    · subst hba
      rw [hs.result, r5_1b]
      exact Or.inr (Or.inr (Or.inr (Or.inl rfl)))
  · subst h2a
    have hpair : urls = [urlB, urlC] ∨ urls = [urlC, urlB] := by
      apply nodup_subset_pair hs.nodup hs.subset
      have := hs.length_eq
      simpa using this
    rcases hpair with hbc | hcb
    · subst hbc
      rw [hs.result, r5_2a1]
      exact Or.inr (Or.inr (Or.inr (Or.inr rfl)))
    · subst hcb
      rw [hs.result, r5_2a2]
      exact Or.inr (Or.inr (Or.inr (Or.inr rfl)))
  · subst h2b
    have hone : urls = [urlC] := by
      apply nodup_subset_one hs.subset
      have := hs.length_eq
      simpa using this
    subst hone
    rw [hs.result, r5_2b]
    exact Or.inr (Or.inr (Or.inr (Or.inr rfl)))
  · subst h3
    exact absurd rfl hs.frontier_ne

theorem reach5 {st : CrawlState} (h : Reaches render5 2 100 s5_0 st) : Good5 st := by
  induction h with
  | refl => exact Or.inl rfl
  | tail _ hstep ih => exact step5 hstep ih

theorem term5 {st : CrawlState} (hg : Good5 st) (ht : Terminal 100 st) : st = s5_3 := by
  rcases hg with h0 | h1 | h2a | h2b | h3
  · subst h0
    rcases ht with he | hc
    · exact absurd he (by decide)
    · exact absurd hc (by decide)
  · subst h1
    rcases ht with he | hc
    · exact absurd he (by decide)
    · exact absurd hc (by decide)
  · subst h2a
    rcases ht with he | hc
    · exact absurd he (by decide)
    · exact absurd hc (by decide)
  · subst h2b
    rcases ht with he | hc
    · exact absurd he (by decide)
    · exact absurd hc (by decide)
  · exact h3

/-- C5: for the scenario graph, every complete crawl with worker count 2 and
cap 100 — whatever the batch selection and completion order of each round —
ends with Visited `{S,A,B,C}`, FailedSet `{B}`, AllLinks `{A,B,C}`, and it
terminates because the frontier drained, not because of the cap. -/
theorem C5_scenario {st : CrawlState}
    (h : Reaches render5 2 100 (initState sUrl) st) (ht : Terminal 100 st) :
    st.visited = {sUrl, urlA, urlB, urlC} ∧ st.failedUrls = {urlB} ∧
      st.allLinks = {urlA, urlB, urlC} ∧ st.toVisit = ∅ ∧ st.visited.card < 100 := by
  have hst : st = s5_3 := term5 (reach5 h) ht
  subst hst
  exact ⟨by decide, by decide, by decide, rfl, by decide⟩

theorem c5Step1 : StepOn render5 2 100 [sUrl] s5_0 s5_1 :=
  ⟨by decide, by decide, by decide, by decide, by decide, r5_01.symm⟩

theorem c5Step2 : StepOn render5 2 100 [urlA, urlB] s5_1 s5_2a :=
  ⟨by decide, by decide, by decide, by decide, by decide, r5_1a.symm⟩

theorem c5Step3 : StepOn render5 2 100 [urlB, urlC] s5_2a s5_3 :=
  ⟨by decide, by decide, by decide, by decide, by decide, r5_2a1.symm⟩

theorem C5_witness :
    s5_3.visited = {sUrl, urlA, urlB, urlC} ∧ s5_3.failedUrls = {urlB} ∧
      s5_3.allLinks = {urlA, urlB, urlC} ∧ s5_3.toVisit = ∅ ∧ s5_3.visited.card < 100 :=
  C5_scenario
    (Relation.ReflTransGen.tail
      (Relation.ReflTransGen.tail (Relation.ReflTransGen.single ⟨[sUrl], c5Step1⟩)
        ⟨[urlA, urlB], c5Step2⟩)
      ⟨[urlB, urlC], c5Step3⟩)
    (Or.inl rfl)

/-! ### Claim C2.  An unbounded graph on which the cap is overshot.

The graph is an infinite 16-ary tree: page `i` links to pages
`16 i + 1 … 16 i + 16`.  Page `0` is the seed `START_URL`; page `n ≥ 1` is
`"https://yc.go.kr/" ++ n` repetitions of `'a'`.  Every link passes
`is_valid_link`, so the frontier never drains, and in index order the visited
count runs `0, 1, 17, 33, …, 79985, 80001`: the crawl stops at the cap with
80001 ≠ 80000 visited pages. -/

/-! #### Generic list lemmas about the string primitives -/

theorem splitOnFirst_append_found {c : Char} {xs a b : List Char}
    (h : splitOnFirst c xs = (a, some b)) (ys : List Char) :
    splitOnFirst c (xs ++ ys) = (a, some (b ++ ys)) := by
  induction xs generalizing a with
  | nil => simp [splitOnFirst] at h
  | cons x xs ih =>
    rw [List.cons_append]
    by_cases hx : (x == c) = true
    · simp only [splitOnFirst, hx, if_true] at h ⊢
      injection h with h1 h2
      injection h2 with h3
      subst h1
      subst h3
      rfl
    · rw [Bool.not_eq_true] at hx
      simp only [splitOnFirst, hx, Bool.false_eq_true, if_false] at h ⊢
      injection h with h1 h2
      have hsp : splitOnFirst c xs = ((splitOnFirst c xs).1, some b) := by
        rw [Prod.ext_iff]
        exact ⟨rfl, h2⟩
      rw [ih hsp]
      rw [← h1]

theorem splitOnFirst_none {c : Char} {l : List Char} (h : ∀ x ∈ l, (x == c) = false) :
    splitOnFirst c l = (l, none) := by
  induction l with
  | nil => rfl
  | cons x xs ih =>
    have hx := h x (List.mem_cons_self x xs)
    simp only [splitOnFirst, hx, Bool.false_eq_true, if_false]
    rw [ih (fun y hy => h y (List.mem_cons_of_mem x hy))]

theorem dropWhile_eq_self_of {p : Char → Bool} {l : List Char}
    (h : ∀ c ∈ l, p c = false) : l.dropWhile p = l := by
  cases l with
  | nil => rfl
  | cons c cs =>
    rw [List.dropWhile_cons, h c (List.mem_cons_self c cs)]
    simp

theorem takeWhile_eq_self_of {p : Char → Bool} {l : List Char}
    (h : ∀ c ∈ l, p c = true) : l.takeWhile p = l := by
  induction l with
  | nil => rfl
  | cons c cs ih =>
    rw [List.takeWhile_cons, h c (List.mem_cons_self c cs)]
    simp only [if_true]
    rw [ih (fun y hy => h y (List.mem_cons_of_mem c hy))]

theorem dropWhile_eq_nil_of {p : Char → Bool} {l : List Char}
    (h : ∀ c ∈ l, p c = true) : l.dropWhile p = [] := by
  induction l with
  | nil => rfl
  | cons c cs ih =>
    rw [List.dropWhile_cons, h c (List.mem_cons_self c cs)]
    simp only [if_true]
    exact ih (fun y hy => h y (List.mem_cons_of_mem c hy))

theorem isPrefixOf_cons_false {a b : Char} {ta tb : List Char} (h : a ≠ b) :
    List.isPrefixOf (a :: ta) (b :: tb) = false := by
  have hab : (a == b) = false := beq_eq_false_iff_ne.mpr h
  simp [List.isPrefixOf, hab]

theorem isSuffixOf_false_of_getLast {xs ys : List Char} {cx cy : Char}
    (hx : xs.getLast? = some cx) (hy : ys.getLast? = some cy) (hne : cx ≠ cy) :
    xs.isSuffixOf ys = false := by
  rw [Bool.eq_false_iff]
  intro htrue
  have hsuf : xs <:+ ys := List.isSuffixOf_iff_suffix.mp htrue
  obtain ⟨zs, rfl⟩ := hsuf
  rw [List.getLast?_append, hx] at hy
  simp only [Option.or_some, Option.some.injEq] at hy
  exact hne hy

theorem infixAnywhere_false_of_missing {p l : List Char} {c : Char}
    (hc : c ∈ p) (hl : c ∉ l) : infixAnywhere p l = false := by
  induction l with
  | nil =>
    cases p with
    | nil => exact absurd hc (List.not_mem_nil c)
    | cons q qs => rfl
  | cons x xs ih =>
    show (p.isPrefixOf (x :: xs) || infixAnywhere p xs) = false
    rw [Bool.or_eq_false_iff]
    constructor
    · rw [Bool.eq_false_iff]
      intro htrue
      have := (List.isPrefixOf_iff_prefix.mp htrue).subset hc
      exact hl this
    · exact ih (fun hmem => hl (List.mem_cons_of_mem x hmem))

/-! #### The URL family `urlOf` -/

theorem urlOf_toList (n : Nat) :
    (urlOf (n + 1)).toList = "https://yc.go.kr/".toList ++ List.replicate (n + 1) 'a' := by
  show ("https://yc.go.kr/" ++ aRep (n + 1)).toList = _
  show ("https://yc.go.kr/" ++ aRep (n + 1)).data = _
  rw [String.data_append]
  rfl

theorem urlOf_pos_toList {n : Nat} (h : 1 ≤ n) :
    (urlOf n).toList = "https://yc.go.kr/".toList ++ List.replicate n 'a' := by
  cases n with
  | zero => exact absurd h (by omega)
  | succ k => exact urlOf_toList k

theorem forall_lit_rep {p : Char → Bool} {b : Bool} {m : Nat}
    (h1 : ∀ c ∈ "https://yc.go.kr/".toList, p c = b) (h2 : p 'a' = b) :
    ∀ c ∈ "https://yc.go.kr/".toList ++ List.replicate m 'a', p c = b := by
  intro c hc
  rcases List.mem_append.mp hc with h | h
  · exact h1 c h
  · rw [List.eq_of_mem_replicate h]
    exact h2

theorem not_mem_lit_rep {c : Char} {m : Nat}
    (h1 : c ∉ "https://yc.go.kr/".toList) (h2 : c ≠ 'a') :
    c ∉ "https://yc.go.kr/".toList ++ List.replicate m 'a' := by
  intro hmem
  rcases List.mem_append.mp hmem with h | h
  · exact h1 h
  · exact h2 (List.eq_of_mem_replicate h)

theorem pyStrip_eq_self_of {s : String} (h : ∀ c ∈ s.toList, pyIsSpace c = false) :
    pyStrip s = s := by
  unfold pyStrip
  rw [dropWhile_eq_self_of h]
  rw [dropWhile_eq_self_of (fun c hc => h c (List.mem_reverse.mp hc))]
  rw [List.reverse_reverse, String.asString_toList]

theorem pyLower_eq_self_of {s : String} (h : ∀ c ∈ s.toList, c.toLower = c) :
    pyLower s = s := by
  unfold pyLower
  rw [List.map_congr_left h]
  show (List.map id s.toList).asString = s
  rw [List.map_id, String.asString_toList]

/-! #### `urlparse` on the tree URLs -/

theorem extractScheme_L (m : Nat) :
    extractScheme ("https://yc.go.kr/".toList ++ List.replicate m 'a') =
      ("https".toList, "//yc.go.kr/".toList ++ List.replicate m 'a') := by
  have h1 : splitOnFirst ':' "https://yc.go.kr/".toList =
      ("https".toList, some "//yc.go.kr/".toList) := by decide
  unfold extractScheme
  rw [splitOnFirst_append_found h1]
  rfl

theorem extractNetloc_L (m : Nat) :
    extractNetloc ("//yc.go.kr/".toList ++ List.replicate m 'a') =
      ("yc.go.kr".toList, '/' :: List.replicate m 'a') := by
  show ((("yc.go.kr/".toList ++ List.replicate m 'a').takeWhile fun c => !netlocEnd c),
      (("yc.go.kr/".toList ++ List.replicate m 'a').dropWhile fun c => !netlocEnd c)) = _
  rw [List.takeWhile_append, List.dropWhile_append]
  rw [if_neg (by decide), if_neg (by decide)]
  have h2 : ("yc.go.kr/".toList.dropWhile fun c => !netlocEnd c) = ['/'] := by decide
  have h3 : ("yc.go.kr/".toList.takeWhile fun c => !netlocEnd c) = "yc.go.kr".toList := by decide
  rw [h2, h3]
  rfl

theorem splitParams_L (k : Nat) :
    splitParams ('/' :: List.replicate k 'a') = ('/' :: List.replicate k 'a', []) := by
  have htake : (List.replicate k 'a' ++ ['/']).takeWhile (fun c => !(c == '/')) =
      List.replicate k 'a' := by
    rw [List.takeWhile_append_of_pos (fun a ha => by rw [List.eq_of_mem_replicate ha]; rfl)]
    rw [show List.takeWhile (fun c => !(c == '/')) ['/'] = [] from rfl, List.append_nil]
  have hdrop : (List.replicate k 'a' ++ ['/']).dropWhile (fun c => !(c == '/')) = ['/'] := by
    rw [List.dropWhile_append_of_pos (fun a ha => by rw [List.eq_of_mem_replicate ha]; rfl)]
    decide
  have hsemi : splitOnFirstD ';' ((List.replicate k 'a').reverse) = (List.replicate k 'a', []) := by
    rw [List.reverse_replicate]
    unfold splitOnFirstD
    rw [splitOnFirst_none (fun x hx => by rw [List.eq_of_mem_replicate hx]; rfl)]
  simp only [splitParams]
  rw [if_pos (show ('/' :: List.replicate k 'a').contains '/' = true from rfl)]
  rw [List.reverse_cons, List.reverse_replicate]
  rw [htake, hdrop, hsemi]
  rfl

theorem splitHash_L (k : Nat) :
    splitOnFirstD '#' ('/' :: List.replicate k 'a') = ('/' :: List.replicate k 'a', []) := by
  unfold splitOnFirstD
  rw [splitOnFirst_none]
  intro x hx
  rcases List.mem_cons.mp hx with h | h
  · rw [h]
    rfl
  · rw [List.eq_of_mem_replicate h]
    rfl

theorem splitQm_L (k : Nat) :
    splitOnFirstD '?' ('/' :: List.replicate k 'a') = ('/' :: List.replicate k 'a', []) := by
  unfold splitOnFirstD
  rw [splitOnFirst_none]
  intro x hx
  rcases List.mem_cons.mp hx with h | h
  · rw [h]
    rfl
  · rw [List.eq_of_mem_replicate h]
    rfl

theorem urlparse_L {s : String} (m : Nat)
    (hs : s.toList = "https://yc.go.kr/".toList ++ List.replicate (m + 1) 'a') :
    urlparse s =
      ⟨"https", "yc.go.kr", ('/' :: List.replicate (m + 1) 'a').asString, "", "", ""⟩ := by
  simp only [urlparse]
  rw [hs]
  rw [dropWhile_eq_self_of (forall_lit_rep (by decide) (by decide))]
  rw [List.filter_eq_self.mpr (forall_lit_rep (by decide) (by decide))]
  rw [extractScheme_L]
  dsimp only
  rw [extractNetloc_L]
  dsimp only
  rw [splitHash_L]
  dsimp only
  rw [splitQm_L]
  dsimp only
  rw [splitParams_L]
  rfl

/-- Every URL of the family passes the filter: https scheme, no excluded
extension (the path ends in `'a'`), no ignored-domain substring, and the base
domain in the netloc. -/
theorem valid_L {s : String} (m : Nat)
    (hs : s.toList = "https://yc.go.kr/".toList ++ List.replicate (m + 1) 'a') :
    is_valid_link s = true := by
  have hne : (s == "") = false := by
    rw [beq_eq_false_iff_ne]
    intro h
    rw [h] at hs
    have hlen := congrArg List.length hs
    simp at hlen
  have hnosp : ∀ c ∈ s.toList, pyIsSpace c = false := by
    rw [hs]
    exact forall_lit_rep (by decide) (by decide)
  have hstrip : pyStrip s = s := pyStrip_eq_self_of hnosp
  have hlow : ∀ c ∈ s.toList, c.toLower = c := by
    rw [hs]
    intro c hc
    rcases List.mem_append.mp hc with h1 | h2
    · exact (by decide : ∀ c ∈ "https://yc.go.kr/".toList, c.toLower = c) c h1
    · rw [List.eq_of_mem_replicate h2]
      decide
  have hlower : pyLower s = s := pyLower_eq_self_of hlow
  have hm1 : pyStartsWith s "mailto:" = false := by
    unfold pyStartsWith
    rw [hs]
    exact isPrefixOf_cons_false (by decide)
  have hm2 : pyStartsWith s "javascript:" = false := by
    unfold pyStartsWith
    rw [hs]
    exact isPrefixOf_cons_false (by decide)
  have hm3 : pyStartsWith s "tel:" = false := by
    unfold pyStartsWith
    rw [hs]
    exact isPrefixOf_cons_false (by decide)
  have hparse : urlparse s =
      ⟨"https", "yc.go.kr", ('/' :: List.replicate (m + 1) 'a').asString, "", "", ""⟩ :=
    urlparse_L m hs
  have htarget : (('/' :: List.replicate (m + 1) 'a').asString ++ "").toList =
      '/' :: List.replicate (m + 1) 'a' := by
    show (('/' :: List.replicate (m + 1) 'a').asString ++ "").data = _
    rw [String.data_append]
    show ('/' :: List.replicate (m + 1) 'a') ++ [] = _
    rw [List.append_nil]
  have hlast : ('/' :: List.replicate (m + 1) 'a').getLast? = some 'a' := by
    rw [List.replicate_succ']
    rw [← List.cons_append]
    exact List.getLast?_concat _
  have hexts : ∀ ext ∈ EXCLUDED_EXTENSIONS,
      ext.toList.getLast? = some (ext.toList.getLast?.getD ' ') ∧
        ext.toList.getLast?.getD ' ' ≠ 'a' := by decide
  have hext : ∀ ext ∈ EXCLUDED_EXTENSIONS,
      pyEndsWith ('/' :: List.replicate (m + 1) 'a').asString ext = false := by
    intro ext hm
    unfold pyEndsWith
    rw [List.toList_asString]
    exact isSuffixOf_false_of_getLast (hexts ext hm).1 hlast (hexts ext hm).2
  have hign : IGNORED_DOMAINS.any (fun d => pyContains s d) = false := by
    apply List.any_eq_false.mpr
    intro d hd
    rw [Bool.not_eq_true]
    unfold pyContains
    rw [hs]
    fin_cases hd
    · exact infixAnywhere_false_of_missing (c := 'f') (by decide)
        (not_mem_lit_rep (by decide) (by decide))
    · exact infixAnywhere_false_of_missing (c := 'm') (by decide)
        (not_mem_lit_rep (by decide) (by decide))
    · exact infixAnywhere_false_of_missing (c := 'u') (by decide)
        (not_mem_lit_rep (by decide) (by decide))
    · exact infixAnywhere_false_of_missing (c := 'w') (by decide)
        (not_mem_lit_rep (by decide) (by decide))
    · exact infixAnywhere_false_of_missing (c := 'n') (by decide)
        (not_mem_lit_rep (by decide) (by decide))
    · exact infixAnywhere_false_of_missing (c := 'd') (by decide)
        (not_mem_lit_rep (by decide) (by decide))
    · exact infixAnywhere_false_of_missing (c := 'm') (by decide)
        (not_mem_lit_rep (by decide) (by decide))
    · exact infixAnywhere_false_of_missing (c := 'l') (by decide)
        (not_mem_lit_rep (by decide) (by decide))
    · exact infixAnywhere_false_of_missing (c := 'v') (by decide)
        (not_mem_lit_rep (by decide) (by decide))
    · exact infixAnywhere_false_of_missing (c := 'm') (by decide)
        (not_mem_lit_rep (by decide) (by decide))
  have hbase : pyContains "yc.go.kr" BASE_DOMAIN = true := by decide
  simp [is_valid_link, hne, hstrip, hlower, hparse, hm1, hm2, hm3, hign, hbase]
  exact hext

theorem valid_urlOf {n : Nat} (h : 1 ≤ n) : is_valid_link (urlOf n) = true := by
  cases n with
  | zero => exact absurd h (by omega)
  | succ k => exact valid_L k (urlOf_toList k)

theorem length_urlOf {n : Nat} (h : 1 ≤ n) : (urlOf n).length = 17 + n := by
  cases n with
  | zero => exact absurd h (by omega)
  | succ k =>
    show ("https://yc.go.kr/" ++ aRep (k + 1)).length = _
    rw [String.length_append]
    unfold aRep
    rw [List.length_asString, List.length_replicate]
    have hlit : "https://yc.go.kr/".length = 17 := by decide
    omega

theorem urlOf_ne_start {n : Nat} (h : 1 ≤ n) : urlOf n ≠ START_URL := by
  intro he
  have hlen := congrArg String.length he
  rw [length_urlOf h] at hlen
  have hstart : START_URL.length = 24 := by decide
  have h7 : n = 7 := by omega
  subst h7
  exact absurd he (by decide)

theorem urlOf_inj : Function.Injective urlOf := by
  intro a b hab
  match a, b with
  | 0, 0 => rfl
  | 0, m + 1 => exact absurd hab.symm (urlOf_ne_start (Nat.succ_le_succ (Nat.zero_le m)))
  | n + 1, 0 => exact absurd hab (urlOf_ne_start (Nat.succ_le_succ (Nat.zero_le n)))
  | n + 1, m + 1 =>
    have h1 := congrArg String.length hab
    rw [length_urlOf (Nat.succ_le_succ (Nat.zero_le n)),
      length_urlOf (Nat.succ_le_succ (Nat.zero_le m))] at h1
    omega

theorem idxOf_urlOf (n : Nat) : idxOf (urlOf n) = n := by
  cases n with
  | zero =>
    show idxOf START_URL = 0
    unfold idxOf
    rw [if_pos rfl]
  | succ k =>
    unfold idxOf
    rw [if_neg (urlOf_ne_start (Nat.succ_le_succ (Nat.zero_le k)))]
    rw [length_urlOf (Nat.succ_le_succ (Nat.zero_le k))]
    omega

theorem renderTree_urlOf (j : Nat) :
    renderTree (urlOf j) = Except.ok ((childIdx j).map urlOf) := by
  unfold renderTree
  rw [idxOf_urlOf]

theorem stripFragment_urlOf {n : Nat} (h : 1 ≤ n) : stripFragment (urlOf n) = urlOf n := by
  unfold stripFragment
  rw [urlOf_pos_toList h]
  rw [splitOnFirst_none (forall_lit_rep (by decide) (by decide))]
  rw [← urlOf_pos_toList h, String.asString_toList]

theorem toFinset_map_range' (a n : Nat) :
    ((List.range' a n).map urlOf).toFinset = (Finset.Ico a (a + n)).image urlOf := by
  ext x
  simp only [List.mem_toFinset, List.mem_map, List.mem_range'_1, Finset.mem_image,
    Finset.mem_Ico]

theorem crawlState_mk_eq {a b : CrawlState} (h1 : a.toVisit = b.toVisit)
    (h2 : a.visited = b.visited) (h3 : a.allLinks = b.allLinks)
    (h4 : a.failedUrls = b.failedUrls) : a = b := by
  cases a
  cases b
  cases h1
  cases h2
  cases h3
  cases h4
  rfl

theorem process_tree (j : Nat) :
    process_page renderTree (urlOf j) =
      (urlOf j, (Finset.Ico (16 * j + 1) (16 * j + 17)).image urlOf, none) := by
  unfold process_page
  rw [renderTree_urlOf]
  dsimp only
  have hval : ∀ u ∈ (childIdx j).map urlOf, is_valid_link u = true := by
    intro u hu
    obtain ⟨k, hk, rfl⟩ := List.mem_map.mp hu
    have hk1 : 1 ≤ k := by
      have := (List.mem_range'_1.mp hk).1
      omega
    exact valid_urlOf hk1
  rw [List.filter_eq_self.mpr hval]
  have hstr : ∀ u ∈ (childIdx j).map urlOf, stripFragment u = u := by
    intro u hu
    obtain ⟨k, hk, rfl⟩ := List.mem_map.mp hu
    have hk1 : 1 ≤ k := by
      have := (List.mem_range'_1.mp hk).1
      omega
    exact stripFragment_urlOf hk1
  rw [List.map_congr_left hstr]
  show (urlOf j, (List.map id ((childIdx j).map urlOf)).toFinset, none) = _
  rw [List.map_id]
  unfold childIdx
  rw [toFinset_map_range']

/-! #### Index-set algebra -/

theorem Ico_sdiff_range {a b c : Nat} (h : c ≤ a) :
    Finset.Ico a b \ Finset.range c = Finset.Ico a b := by
  ext x
  simp only [Finset.mem_sdiff, Finset.mem_Ico, Finset.mem_range]
  omega

theorem Ico_sdiff_Ico_high {a b c d : Nat} (h : d ≤ a) :
    Finset.Ico a b \ Finset.Ico c d = Finset.Ico a b := by
  ext x
  simp only [Finset.mem_sdiff, Finset.mem_Ico]
  omega

theorem Ico_sdiff_Ico_left {a b c : Nat} (h : a ≤ c) :
    Finset.Ico a b \ Finset.Ico a c = Finset.Ico c b := by
  ext x
  simp only [Finset.mem_sdiff, Finset.mem_Ico]
  omega

/-! #### One round of the tree crawl -/

theorem merge_tree {v j : Nat} (h1 : 1 ≤ v) (hj : v ≤ j) :
    mergeResult (treeMid v j) (process_page renderTree (urlOf j)) = treeMid v (j + 1) := by
  have hvis : insert (urlOf j) ((Finset.range j).image urlOf) =
      (Finset.range (j + 1)).image urlOf := by
    rw [Finset.range_succ, Finset.image_insert]
  have hF : ((Finset.Ico (16 * j + 1) (16 * j + 17)).image urlOf \
        (Finset.range (j + 1)).image urlOf) \
        (Finset.Ico (v + 16) (16 * j + 1)).image urlOf =
      (Finset.Ico (16 * j + 1) (16 * j + 17)).image urlOf := by
    rw [← Finset.image_sdiff _ _ urlOf_inj, Ico_sdiff_range (by omega)]
    rw [← Finset.image_sdiff _ _ urlOf_inj, Ico_sdiff_Ico_high (by omega)]
  have harith : 16 * j + 17 = 16 * (j + 1) + 1 := by omega
  rw [process_tree,
    mergeResult_ok (treeMid v j)
      (urlOf j, (Finset.Ico (16 * j + 1) (16 * j + 17)).image urlOf, none) rfl]
  apply crawlState_mk_eq
  · show (Finset.Ico (v + 16) (16 * j + 1)).image urlOf ∪
        (((Finset.Ico (16 * j + 1) (16 * j + 17)).image urlOf \
          insert (urlOf j) ((Finset.range j).image urlOf)) \
          (Finset.Ico (v + 16) (16 * j + 1)).image urlOf) =
      (Finset.Ico (v + 16) (16 * (j + 1) + 1)).image urlOf
    rw [hvis, hF, ← Finset.image_union,
      Finset.Ico_union_Ico_eq_Ico (by omega) (by omega), harith]
  · show insert (urlOf j) ((Finset.range j).image urlOf) = (Finset.range (j + 1)).image urlOf
    exact hvis
  · show (Finset.Ico 1 (16 * j + 1)).image urlOf ∪
        (((Finset.Ico (16 * j + 1) (16 * j + 17)).image urlOf \
          insert (urlOf j) ((Finset.range j).image urlOf)) \
          (Finset.Ico (v + 16) (16 * j + 1)).image urlOf) =
      (Finset.Ico 1 (16 * (j + 1) + 1)).image urlOf
    rw [hvis, hF, ← Finset.image_union,
      Finset.Ico_union_Ico_eq_Ico (by omega) (by omega), harith]
  · rfl

theorem fold_tree (v : Nat) (h1 : 1 ≤ v) :
    ∀ (k j : Nat), v ≤ j → j + k = v + 16 →
      ((List.range' j k).map (process_page renderTree ∘ urlOf)).foldl mergeResult
        (treeMid v j) = treeMid v (v + 16) := by
  intro k
  induction k with
  | zero =>
    intro j hvj hsum
    have hj : j = v + 16 := by omega
    subst hj
    rfl
  | succ k ih =>
    intro j hvj hsum
    rw [List.range'_succ]
    simp only [List.map_cons, List.foldl_cons]
    rw [show (process_page renderTree ∘ urlOf) j = process_page renderTree (urlOf j) from rfl]
    rw [merge_tree h1 hvj]
    exact ih (j + 1) (by omega) (by omega)

theorem treeMid_last (v : Nat) : treeMid v (v + 16) = treeState (v + 16) := rfl

theorem runRound_tree {v : Nat} (h1 : 1 ≤ v) :
    runRound renderTree (treeState v) ((List.range' v 16).map urlOf) = treeState (v + 16) := by
  show ((((List.range' v 16).map urlOf).map (process_page renderTree)).foldl mergeResult
      { treeState v with
        toVisit := (treeState v).toVisit \ ((List.range' v 16).map urlOf).toFinset }) =
    treeState (v + 16)
  have hst1 : ({ treeState v with
      toVisit := (treeState v).toVisit \ ((List.range' v 16).map urlOf).toFinset } :
        CrawlState) = treeMid v v := by
    apply crawlState_mk_eq
    · show (Finset.Ico v (16 * v + 1)).image urlOf \ ((List.range' v 16).map urlOf).toFinset =
        (Finset.Ico (v + 16) (16 * v + 1)).image urlOf
      rw [toFinset_map_range']
      rw [← Finset.image_sdiff _ _ urlOf_inj]
      rw [Ico_sdiff_Ico_left (by omega)]
    · rfl
    · rfl
    · rfl
  rw [hst1, List.map_map]
  rw [fold_tree v h1 16 v (le_refl v) (by omega)]
  exact treeMid_last v

theorem step_tree {v : Nat} (h1 : 1 ≤ v) (h2 : v < 80000) :
    StepOn renderTree CONCURRENT_WORKERS MAX_PAGES ((List.range' v 16).map urlOf)
      (treeState v) (treeState (v + 16)) := by
  have hcard : (treeState v).toVisit.card = 15 * v + 1 := by
    show ((Finset.Ico v (16 * v + 1)).image urlOf).card = _
    rw [Finset.card_image_of_injective _ urlOf_inj, Nat.card_Ico]
    omega
  have hvcard : (treeState v).visited.card = v := by
    show ((Finset.range v).image urlOf).card = _
    rw [Finset.card_image_of_injective _ urlOf_inj, Finset.card_range]
  constructor
  · have hv : urlOf v ∈ (treeState v).toVisit := by
      show _ ∈ (Finset.Ico v (16 * v + 1)).image urlOf
      exact Finset.mem_image_of_mem urlOf (Finset.mem_Ico.mpr ⟨le_refl v, by omega⟩)
    exact Finset.ne_empty_of_mem hv
  · rw [hvcard]
    exact h2
  · exact List.Nodup.map urlOf_inj (List.nodup_range' v 16)
  · rw [toFinset_map_range']
    apply Finset.image_subset_image
    intro x hx
    rw [Finset.mem_Ico] at hx ⊢
    omega
  · rw [List.length_map, List.length_range', hcard]
    show 16 = min 16 (15 * v + 1)
    omega
  · exact (runRound_tree h1).symm

theorem step_tree0 :
    StepOn renderTree CONCURRENT_WORKERS MAX_PAGES [urlOf 0] (treeState 0) (treeState 1) :=
  ⟨by decide, by decide, by decide, by decide, by decide,
    crawlState_eq_of (by decide) (by decide) (by decide) (by decide)
      (by decide) (by decide) (by decide) (by decide)⟩

theorem treeState0_eq_init : treeState 0 = initState START_URL :=
  crawlState_eq_of (by decide) (by decide) (by decide) (by decide)
    (by decide) (by decide) (by decide) (by decide)

theorem tree_reaches : ∀ k : Nat, k ≤ 5000 →
    Reaches renderTree CONCURRENT_WORKERS MAX_PAGES (treeState 0) (treeState (1 + 16 * k)) := by
  intro k
  induction k with
  | zero =>
    intro _
    exact Relation.ReflTransGen.single ⟨[urlOf 0], step_tree0⟩
  | succ k ih =>
    intro hk
    have hs := step_tree (v := 1 + 16 * k) (by omega) (by omega)
    have harith : 1 + 16 * k + 16 = 1 + 16 * (k + 1) := by ring
    rw [harith] at hs
    exact Relation.ReflTransGen.tail (ih (by omega)) ⟨_, hs⟩

theorem tree_reaches_final :
    Reaches renderTree CONCURRENT_WORKERS MAX_PAGES (initState START_URL)
      (treeState 80001) := by
  have h := tree_reaches 5000 (le_refl 5000)
  rw [treeState0_eq_init] at h
  have harith : (1 + 16 * 5000 : Nat) = 80001 := by norm_num
  rw [harith] at h
  exact h

theorem tree_card : (treeState 80001).visited.card = 80001 := by
  show ((Finset.range 80001).image urlOf).card = 80001
  rw [Finset.card_image_of_injective _ urlOf_inj, Finset.card_range]

theorem tree_terminal : Terminal MAX_PAGES (treeState 80001) := by
  refine Or.inr ?_
  rw [tree_card]
  norm_num [MAX_PAGES]

theorem tree_nonempty : (treeState 80001).toVisit ≠ ∅ := by
  have hmem : urlOf 80001 ∈ (treeState 80001).toVisit := by
    show _ ∈ (Finset.Ico 80001 (16 * 80001 + 1)).image urlOf
    exact Finset.mem_image_of_mem urlOf (Finset.mem_Ico.mpr ⟨le_refl _, by norm_num⟩)
  exact Finset.ne_empty_of_mem hmem

/-- C2 counterexample: on the unbounded 16-ary tree graph — whose frontier
never drains — the crawl, with the program's own `MAX_PAGES = 80000` and
`CONCURRENT_WORKERS = 16`, reaches a cap-terminated state whose visited set
has 80001 ≠ 80000 elements: the final round was entered at 79985 visited and
merged a full batch of 16. -/
theorem C2_counterexample :
    Reaches renderTree CONCURRENT_WORKERS MAX_PAGES (initState START_URL) (treeState 80001) ∧
    Terminal MAX_PAGES (treeState 80001) ∧
    (treeState 80001).toVisit ≠ ∅ ∧
    (treeState 80001).visited.card ≠ MAX_PAGES :=
  ⟨tree_reaches_final, tree_terminal, tree_nonempty, by rw [tree_card]; decide⟩

/-- C2 amended: when the crawl terminates with a non-drained frontier (the
cap case, as on an unbounded/cyclic graph), the visited count is at least
`MAX_PAGES` but need not equal it: it is bounded by
`MAX_PAGES + CONCURRENT_WORKERS - 1`, the cap plus at most one batch. -/
theorem C2_amended {render : Render} {st : CrawlState}
    (h : Reaches render CONCURRENT_WORKERS MAX_PAGES (initState START_URL) st)
    (ht : Terminal MAX_PAGES st) (hne : st.toVisit ≠ ∅) :
    MAX_PAGES ≤ st.visited.card ∧ st.visited.card < MAX_PAGES + CONCURRENT_WORKERS := by
  constructor
  · rcases ht with he | hc
    · exact absurd he hne
    · exact hc
  · rcases Relation.ReflTransGen.cases_tail h with heq | ⟨p, _, hstep⟩
    · rw [heq]
      decide
    · exact stepRel_visited_card_lt hstep

theorem C2_amended_witness :
    MAX_PAGES ≤ (treeState 80001).visited.card ∧
      (treeState 80001).visited.card < MAX_PAGES + CONCURRENT_WORKERS :=
  C2_amended tree_reaches_final tree_terminal tree_nonempty

end SeedUrl
